import Mathlib

set_option maxRecDepth 100000

/-!
Verification development for the static-analysis pipeline of the
`flatten` repository (TypeScript): file traversal, parser dispatch,
project aggregation (`src/codeAnalyzer/projectAnalyzer.ts`) and the
context chunker (`chunkCodebase` in `src/mcp/openaiClient.ts`).

The data model mirrors `src/codeAnalyzer/types.ts`.  Optional interface
fields become `Option`; `JSON.stringify` is modelled by the `json*`
functions below (keys in interface declaration order; `undefined`
fields omitted, as `JSON.stringify` omits them).  The runtime key order
of a JS object depends on the construction site, but the chunker only
uses the *length* of the serialized string, which key order does not
affect.
-/

/-- `Parameter` from `types.ts`. -/
structure Parameter where
  name : String
  type : String
deriving Repr, DecidableEq

/-- `Location` from `types.ts`. -/
structure Location where
  file : String
  startLine : Int
  endLine : Int
deriving Repr, DecidableEq

/-- `FunctionAnalysis` from `types.ts` (`type`, `body`, `codeSnippet` optional). -/
structure FunctionAnalysis where
  name : String
  type : Option String := none
  parameters : List Parameter
  returnType : String
  body : Option String := none
  codeSnippet : Option String := none
  documentation : String
  location : Location
deriving Repr, DecidableEq

/-- `ClassProperty` from `types.ts`. -/
structure ClassProperty where
  name : String
  type : String
  documentation : String
deriving Repr, DecidableEq

/-- `ClassMethod` from `types.ts` (`location` optional for the Babel parser). -/
structure ClassMethod where
  name : String
  type : Option String := none
  parameters : List Parameter
  returnType : String
  body : Option String := none
  codeSnippet : Option String := none
  documentation : String
  location : Option Location := none
deriving Repr, DecidableEq

/-- `ClassAnalysis` from `types.ts`.  The extra `note` field models the
`note` key that `chunkCodebase` adds to partial-class records via
object spread; on every input produced by the analyzer it is absent
(`none`). -/
structure ClassAnalysis where
  name : String
  type : Option String := none
  methods : List ClassMethod
  properties : List ClassProperty
  documentation : String
  location : Location
  codeSnippet : Option String := none
  note : Option String := none
deriving Repr, DecidableEq

/-- `AnalysisResult` from `types.ts`.  `chunkCodebase` also returns values of
this shape (its chunks are `{...context, functions}` / `{...context, classes}`
spreads of the input object). -/
structure AnalysisResult where
  functions : List FunctionAnalysis
  classes : List ClassAnalysis
deriving Repr, DecidableEq

instance : Inhabited FunctionAnalysis :=
  ⟨{ name := "", parameters := [], returnType := "", documentation := "",
     location := { file := "", startLine := 0, endLine := 0 } }⟩

instance : Inhabited ClassAnalysis :=
  ⟨{ name := "", methods := [], properties := [], documentation := "",
     location := { file := "", startLine := 0, endLine := 0 } }⟩

/-! ## JSON serialization (model of `JSON.stringify`, compact form) -/

/-- JSON escaping of a single character, as `JSON.stringify` performs it. -/
def jsonEscapeChar (c : Char) : String :=
  if c = '"' then "\\\""
  else if c = '\\' then "\\\\"
  else if c = '\n' then "\\n"
  else if c = '\t' then "\\t"
  else if c = '\x0d' then "\\r"
  else if c = '\x08' then "\\b"
  else if c = '\x0c' then "\\f"
  else if c.toNat < 32 then
    "\\u00" ++ String.mk [Nat.digitChar (c.toNat / 16), Nat.digitChar (c.toNat % 16)]
  else String.mk [c]

/-- A JSON string literal: quotes around the escaped contents. -/
def jsonStr (s : String) : String :=
  "\"" ++ String.join (s.toList.map jsonEscapeChar) ++ "\""

/-- One `"key":value` member of a JSON object. -/
def jsonField (k v : String) : String := jsonStr k ++ ":" ++ v

/-- A JSON object from already-serialized members (omitted members are
dropped beforehand, as `JSON.stringify` drops `undefined` fields). -/
def jsonObj (fields : List (Option String)) : String :=
  "\x7b" ++ String.intercalate "," (fields.filterMap id) ++ "\x7d"

/-- A JSON array from already-serialized elements. -/
def jsonArr (elems : List String) : String :=
  "[" ++ String.intercalate "," elems ++ "]"

def jsonParameter (p : Parameter) : String :=
  jsonObj [some (jsonField "name" (jsonStr p.name)),
           some (jsonField "type" (jsonStr p.type))]

def jsonLocation (l : Location) : String :=
  jsonObj [some (jsonField "file" (jsonStr l.file)),
           some (jsonField "startLine" (toString l.startLine)),
           some (jsonField "endLine" (toString l.endLine))]

def jsonFunction (f : FunctionAnalysis) : String :=
  jsonObj [some (jsonField "name" (jsonStr f.name)),
           f.type.map (fun t => jsonField "type" (jsonStr t)),
           some (jsonField "parameters" (jsonArr (f.parameters.map jsonParameter))),
           some (jsonField "returnType" (jsonStr f.returnType)),
           f.body.map (fun b => jsonField "body" (jsonStr b)),
           f.codeSnippet.map (fun s => jsonField "codeSnippet" (jsonStr s)),
           some (jsonField "documentation" (jsonStr f.documentation)),
           some (jsonField "location" (jsonLocation f.location))]

def jsonProperty (p : ClassProperty) : String :=
  jsonObj [some (jsonField "name" (jsonStr p.name)),
           some (jsonField "type" (jsonStr p.type)),
           some (jsonField "documentation" (jsonStr p.documentation))]

def jsonMethod (m : ClassMethod) : String :=
  jsonObj [some (jsonField "name" (jsonStr m.name)),
           m.type.map (fun t => jsonField "type" (jsonStr t)),
           some (jsonField "parameters" (jsonArr (m.parameters.map jsonParameter))),
           some (jsonField "returnType" (jsonStr m.returnType)),
           m.body.map (fun b => jsonField "body" (jsonStr b)),
           m.codeSnippet.map (fun s => jsonField "codeSnippet" (jsonStr s)),
           some (jsonField "documentation" (jsonStr m.documentation)),
           m.location.map (fun l => jsonField "location" (jsonLocation l))]

def jsonClass (c : ClassAnalysis) : String :=
  jsonObj [some (jsonField "name" (jsonStr c.name)),
           c.type.map (fun t => jsonField "type" (jsonStr t)),
           some (jsonField "methods" (jsonArr (c.methods.map jsonMethod))),
           some (jsonField "properties" (jsonArr (c.properties.map jsonProperty))),
           some (jsonField "documentation" (jsonStr c.documentation)),
           some (jsonField "location" (jsonLocation c.location)),
           c.codeSnippet.map (fun s => jsonField "codeSnippet" (jsonStr s)),
           c.note.map (fun n => jsonField "note" (jsonStr n))]

/-- Serialization of a whole `AnalysisResult` / chunk object. -/
def jsonResult (r : AnalysisResult) : String :=
  jsonObj [some (jsonField "functions" (jsonArr (r.functions.map jsonFunction))),
           some (jsonField "classes" (jsonArr (r.classes.map jsonClass)))]

/-! ## The context chunker (`chunkCodebase`, `src/mcp/openaiClient.ts`) -/

/-- `estimateTokens` from `chunkCodebase`: `Math.ceil(str.length / 4)`. -/
def estimateTokens (s : String) : Nat := (s.length + 3) / 4

/-- The oversized-function reduction `{ ...func, body: "/* Body too large,
truncated */" }` from `chunkCodebase`. -/
def truncBody (f : FunctionAnalysis) : FunctionAnalysis :=
  { f with body := some "/* Body too large, truncated */" }

/-- The function-packing loop of `chunkCodebase`: iterates `context.functions`
carrying `functionChunks`, `currentChunk` and `currentSize`, and finishes
by flushing a non-empty `currentChunk`. -/
def funcPass (maxChunkSize : Nat) :
    List FunctionAnalysis → List (List FunctionAnalysis) →
    List FunctionAnalysis → Nat → List (List FunctionAnalysis)
  | [], functionChunks, currentChunk, _ =>
    if currentChunk.length > 0 then functionChunks ++ [currentChunk] else functionChunks
  | func :: rest, functionChunks, currentChunk, currentSize =>
    let funcTokens := estimateTokens (jsonFunction func)
    if funcTokens > maxChunkSize then
      funcPass maxChunkSize rest functionChunks (currentChunk ++ [truncBody func]) currentSize
    else if currentSize + funcTokens > maxChunkSize ∧ currentChunk.length > 0 then
      funcPass maxChunkSize rest (functionChunks ++ [currentChunk]) [func] funcTokens
    else
      funcPass maxChunkSize rest functionChunks (currentChunk ++ [func]) (currentSize + funcTokens)

/-- The method-packing loop inside the oversized-class branch of
`chunkCodebase`.  Note the source flushes `currentMethods` without checking
that it is non-empty, so a leading oversized method produces an empty
method group. -/
def methodPass (maxChunkSize : Nat) :
    List ClassMethod → List (List ClassMethod) → List ClassMethod → Nat →
    List (List ClassMethod)
  | [], methodChunks, currentMethods, _ =>
    if currentMethods.length > 0 then methodChunks ++ [currentMethods] else methodChunks
  | m :: rest, methodChunks, currentMethods, methodSize =>
    let methodTokens := estimateTokens (jsonMethod m)
    if methodSize + methodTokens > maxChunkSize then
      methodPass maxChunkSize rest (methodChunks ++ [currentMethods]) [m] methodTokens
    else
      methodPass maxChunkSize rest methodChunks (currentMethods ++ [m]) (methodSize + methodTokens)

/-- The partial-class records an oversized class is decomposed into:
`{ ...cls, methods, note: "Part i/N of large class" }` for each method
group, 1-indexed. -/
def classParts (cls : ClassAnalysis) (maxChunkSize : Nat) : List ClassAnalysis :=
  let methodChunks := methodPass maxChunkSize cls.methods [] [] 0
  methodChunks.mapIdx fun idx methods =>
    { cls with methods := methods,
               note := some ("Part " ++ toString (idx + 1) ++ "/" ++
                             toString methodChunks.length ++ " of large class") }

/-- The class-packing loop of `chunkCodebase`.  An oversized class is
decomposed into `classParts` and all of them are appended to the
current chunk; `currentSize` is not increased for them. -/
def classPass (maxChunkSize : Nat) :
    List ClassAnalysis → List (List ClassAnalysis) → List ClassAnalysis → Nat →
    List (List ClassAnalysis)
  | [], classChunks, currentChunk, _ =>
    if currentChunk.length > 0 then classChunks ++ [currentChunk] else classChunks
  | cls :: rest, classChunks, currentChunk, currentSize =>
    let clsTokens := estimateTokens (jsonClass cls)
    if clsTokens > maxChunkSize then
      classPass maxChunkSize rest classChunks (currentChunk ++ classParts cls maxChunkSize) currentSize
    else if currentSize + clsTokens > maxChunkSize ∧ currentChunk.length > 0 then
      classPass maxChunkSize rest (classChunks ++ [currentChunk]) [cls] clsTokens
    else
      classPass maxChunkSize rest classChunks (currentChunk ++ [cls]) (currentSize + clsTokens)

/-- `chunkCodebase(context, maxChunkSize)` from `src/mcp/openaiClient.ts`,
specialized to contexts of shape `AnalysisResult` (on such a context the
source's `context.functions && Array.isArray(context.functions)` guard is
always true: both fields are arrays, and an empty array is truthy in JS).
Function chunks are `{ ...context, functions: funcs }`, class chunks are
`{ ...context, classes }`; if no chunk was produced the original context is
returned as the single chunk. -/
def chunkCodebase (context : AnalysisResult) (maxChunkSize : Nat) : List AnalysisResult :=
  let functionChunks := funcPass maxChunkSize context.functions [] [] 0
  let classChunks := classPass maxChunkSize context.classes [] [] 0
  let chunks : List AnalysisResult :=
    functionChunks.map (fun funcs => { context with functions := funcs }) ++
    classChunks.map (fun classes => { context with classes := classes })
  if chunks.length > 0 then chunks else [context]

/-! ## File traversal (`listFilesRecursively`, `src/codeAnalyzer/projectAnalyzer.ts`) -/

/-- A node of a (static) file-system tree: a plain file, or a directory whose
entries are listed in the order `fs.readdirSync` returns them. -/
inductive FSNode where
  | file : FSNode
  | dir : List (String × FSNode) → FSNode
deriving Repr

/-- The fixed `IGNORED_DIRS` set of `listFilesRecursively`. -/
def IGNORED_DIRS : List String := ["node_modules", ".git", "dist", ".idea", ".vscode"]

/-- `path.flatten(dirPath, file)` for the separator-free entry names returned by
`fs.readdirSync`. -/
def pathJoin (dirPath file : String) : String := dirPath ++ "/" ++ file

/-- `listFilesRecursively(dirPath)` from `projectAnalyzer.ts`, written over the
entry list of the directory at `dirPath`.  An entry whose *name* is in
`IGNORED_DIRS` is skipped before `statSync` runs, so the check applies to
files and directories alike; directories contribute their recursive listing
in place and plain files are pushed, in `readdirSync` order. -/
def listFilesRecursively (dirPath : String) : List (String × FSNode) → List String
  | [] => []
  | (name, node) :: rest =>
    if name ∈ IGNORED_DIRS then listFilesRecursively dirPath rest
    else match node with
      | .dir entries =>
        listFilesRecursively (pathJoin dirPath name) entries ++ listFilesRecursively dirPath rest
      | .file => pathJoin dirPath name :: listFilesRecursively dirPath rest

/-- All root-to-file name sequences of an entry list, in depth-first
`readdirSync` order, with no pruning.  Used to state what
`listFilesRecursively` keeps and drops. -/
def pathsToFiles : List (String × FSNode) → List (List String)
  | [] => []
  | (name, node) :: rest =>
    (match node with
      | .dir entries => (pathsToFiles entries).map (fun comps => name :: comps)
      | .file => [[name]]) ++ pathsToFiles rest

/-! ## Models of the JS string builtins used by the pipeline -/

/-- The characters `String.prototype.trim` strips (the common whitespace
set). -/
def jsWhitespace (c : Char) : Bool :=
  c = ' ' || c = '\t' || c = '\n' || c = '\x0d' || c = '\x0c' || c = '\x0b'

/-- `folder.trim()`: strip leading and trailing whitespace. -/
def jsTrim (s : String) : String :=
  String.mk (((s.toList.dropWhile jsWhitespace).reverse.dropWhile jsWhitespace).reverse)

/-- `s.endsWith(post)` on JS strings. -/
def jsEndsWith (s post : String) : Bool :=
  post.toList.isSuffixOf s.toList

/-! ## Parser registry (`ParserRegistry.ts` and the parsers' `canHandle`) -/

/-- The three parser classes registered in `ParserRegistry.parsers`. -/
inductive ParserKind where
  | typescript : ParserKind
  | babel : ParserKind
  | yaml : ParserKind
deriving Repr, DecidableEq

/-- The `canHandle` predicate of each parser class (`tsParser.ts`,
`babelParser.ts`, `yamlParser.ts`): pure extension checks. -/
def canHandle : ParserKind → String → Bool
  | .typescript, filePath => jsEndsWith filePath ".ts" || jsEndsWith filePath ".tsx"
  | .babel, filePath => jsEndsWith filePath ".js" || jsEndsWith filePath ".jsx"
  | .yaml, filePath => jsEndsWith filePath ".yml" || jsEndsWith filePath ".yaml"

/-- `ParserRegistry.parsers`, in registration order. -/
def registryParsers : List ParserKind := [.typescript, .babel, .yaml]

/-- `ParserRegistry.getParserForFile`: the first registered parser whose
`canHandle` accepts the path. -/
def getParserForFile (filePath : String) : Option ParserKind :=
  registryParsers.find? (fun p => canHandle p filePath)

/-! ## Project analysis (`analyzeProject`, `src/codeAnalyzer/projectAnalyzer.ts`) -/

/-- The value a parser's `parseFile` resolves with: `functions` and `classes`
are both optional (`analyzeProject` guards each with an `if` before
appending). -/
structure ParseOutput where
  functions : Option (List FunctionAnalysis) := none
  classes : Option (List ClassAnalysis) := none
deriving Repr, DecidableEq

/-- The per-file parse outcome: `Except.error` models the whole `try` block
of the loop body throwing (unreadable file or parse failure); the message is
what the thrown error carries. -/
def ParseOracle : Type := ParserKind → String → Except String ParseOutput

/-- The body of the `for (const file of codeFiles)` loop of `analyzeProject`:
select the parser (`continue` when none), run the parse inside `try`, and on
success append the file's lists to the accumulator; the `catch` only logs,
so a throwing file leaves the accumulator untouched. -/
def analyzeStep (parseFile : ParseOracle) (analysisResult : AnalysisResult)
    (file : String) : AnalysisResult :=
  match getParserForFile file with
  | none => analysisResult
  | some parser =>
    match parseFile parser file with
    | .error _ => analysisResult
    | .ok result =>
      { functions := analysisResult.functions ++ result.functions.getD [],
        classes := analysisResult.classes ++ result.classes.getD [] }

/-- `analyzeProject(folder)` from `projectAnalyzer.ts`.

  * `normalize` stands for `path.normalize`, which the source applies once to
    the trimmed input and uses for both the existence check and traversal —
    every theorem below holds for an arbitrary `normalize`;
  * `fs` resolves a path to the file-system node at it (`none` = missing), so
    `fs.existsSync(p)` is `(fs p).isSome` and `fs.readdirSync(p)` yields the
    entry list when `fs p` is a directory and throws otherwise (`ENOTDIR`);
  * `parseFile` is the parse oracle for `parser.parseFile(file)` (together
    with the `readFile` preceding it — both run inside the same `try`).

The loop appends `result.functions` / `result.classes` of each successful
parse to the accumulator; a file whose parse throws is skipped (the `catch`
only logs), and a file with no matching parser is skipped via `continue`. -/
def analyzeProject (normalize : String → String) (fs : String → Option FSNode)
    (parseFile : ParseOracle) (folder : String) : Except String AnalysisResult :=
  let folder := jsTrim folder
  let resolvedPath := normalize folder
  match fs resolvedPath with
  | none => .error ("Folder does not exist: " ++ resolvedPath)
  | some .file => .error ("ENOTDIR: not a directory, scandir " ++ resolvedPath)
  | some (.dir entries) =>
    let files := listFilesRecursively resolvedPath entries
    let codeFiles := files.filter (fun file => jsEndsWith file ".ts" || jsEndsWith file ".js")
    .ok (codeFiles.foldl (analyzeStep parseFile) { functions := [], classes := [] })

/-- The entities a single file contributes to the aggregate: nothing when no
parser matches or the parse throws, its (possibly absent) lists otherwise.
Closed form used to state the aggregation theorems. -/
def fileEntities (parseFile : ParseOracle) (file : String) :
    List FunctionAnalysis × List ClassAnalysis :=
  match getParserForFile file with
  | none => ([], [])
  | some parser =>
    match parseFile parser file with
    | .error _ => ([], [])
    | .ok result => (result.functions.getD [], result.classes.getD [])

/-! ## Heap-instrumented chunker (for the no-mutation claim)

`chunkCodebase` receives its context by reference; JS mutation of the input
would be visible to the caller.  To make the frame property statable, the
same algorithm is rerun over an explicit object store: the input's function
and class objects occupy the store's initial segment, every object literal
the chunker builds (`{...func, body}` spreads, partial-class records) is a
fresh allocation at the end of the store, and all other steps manipulate
references only — exactly the operations the source performs. -/

/-- The object store: input functions occupy `funcObjs` indices
`0..n-1` and input classes `classObjs` indices `0..m-1`; allocations append. -/
structure Heap where
  funcObjs : List FunctionAnalysis
  classObjs : List ClassAnalysis
deriving Repr

/-- Allocate a fresh function object (a `{...func, ...}` literal). -/
def allocFunc (h : Heap) (f : FunctionAnalysis) : Heap × Nat :=
  (⟨h.funcObjs ++ [f], h.classObjs⟩, h.funcObjs.length)

/-- Allocate a fresh class object (a `{...cls, ...}` literal). -/
def allocClass (h : Heap) (c : ClassAnalysis) : Heap × Nat :=
  (⟨h.funcObjs, h.classObjs ++ [c]⟩, h.classObjs.length)

/-- Dereference a function object. -/
def getFunc (h : Heap) (r : Nat) : FunctionAnalysis := h.funcObjs.getD r default

/-- Dereference a class object. -/
def getClass (h : Heap) (r : Nat) : ClassAnalysis := h.classObjs.getD r default

/-- The function-packing loop over references: reads `func`, allocates the
truncated copy in the oversized branch, and otherwise moves references
around; the store is only read and appended to. -/
def funcPassH (maxChunkSize : Nat) :
    Heap → List Nat → List (List Nat) → List Nat → Nat → Heap × List (List Nat)
  | h, [], functionChunks, currentChunk, _ =>
    (h, if currentChunk.length > 0 then functionChunks ++ [currentChunk] else functionChunks)
  | h, r :: rest, functionChunks, currentChunk, currentSize =>
    let func := getFunc h r
    let funcTokens := estimateTokens (jsonFunction func)
    if funcTokens > maxChunkSize then
      let alloc := allocFunc h (truncBody func)
      funcPassH maxChunkSize alloc.1 rest functionChunks (currentChunk ++ [alloc.2]) currentSize
    else if currentSize + funcTokens > maxChunkSize ∧ currentChunk.length > 0 then
      funcPassH maxChunkSize h rest (functionChunks ++ [currentChunk]) [r] funcTokens
    else
      funcPassH maxChunkSize h rest functionChunks (currentChunk ++ [r]) (currentSize + funcTokens)

/-- Allocate the partial-class records of one oversized class, one fresh
object per method group, in group order. -/
def allocParts (cls : ClassAnalysis) (total : Nat) :
    Heap → List (Nat × List ClassMethod) → Heap × List Nat
  | h, [] => (h, [])
  | h, (idx, methods) :: rest =>
    let alloc := allocClass h
      { cls with methods := methods,
                 note := some ("Part " ++ toString (idx + 1) ++ "/" ++
                               toString total ++ " of large class") }
    let next := allocParts cls total alloc.1 rest
    (next.1, alloc.2 :: next.2)

/-- Decompose the class at reference `r`: group its methods with the pure
`methodPass` (methods are read, never written) and allocate one partial
record per group. -/
def classPartsH (h : Heap) (r : Nat) (maxChunkSize : Nat) : Heap × List Nat :=
  let cls := getClass h r
  let groups := methodPass maxChunkSize cls.methods [] [] 0
  allocParts cls groups.length h groups.enum

/-- The class-packing loop over references. -/
def classPassH (maxChunkSize : Nat) :
    Heap → List Nat → List (List Nat) → List Nat → Nat → Heap × List (List Nat)
  | h, [], classChunks, currentChunk, _ =>
    (h, if currentChunk.length > 0 then classChunks ++ [currentChunk] else classChunks)
  | h, r :: rest, classChunks, currentChunk, currentSize =>
    let cls := getClass h r
    let clsTokens := estimateTokens (jsonClass cls)
    if clsTokens > maxChunkSize then
      let parts := classPartsH h r maxChunkSize
      classPassH maxChunkSize parts.1 rest classChunks (currentChunk ++ parts.2) currentSize
    else if currentSize + clsTokens > maxChunkSize ∧ currentChunk.length > 0 then
      classPassH maxChunkSize h rest (classChunks ++ [currentChunk]) [r] clsTokens
    else
      classPassH maxChunkSize h rest classChunks (currentChunk ++ [r]) (currentSize + clsTokens)

/-- `chunkCodebase` over the explicit store: the input context's objects form
the initial store, chunks are pairs of reference lists (`functions`,
`classes`), and the final store is returned so the caller's view of the
input can be inspected after the run. -/
def chunkCodebaseH (context : AnalysisResult) (maxChunkSize : Nat) :
    Heap × List (List Nat × List Nat) :=
  let h0 : Heap := ⟨context.functions, context.classes⟩
  let fRefs := List.range context.functions.length
  let cRefs := List.range context.classes.length
  let fRun := funcPassH maxChunkSize h0 fRefs [] [] 0
  let cRun := classPassH maxChunkSize fRun.1 cRefs [] [] 0
  let chunks := fRun.2.map (fun g => (g, cRefs)) ++ cRun.2.map (fun g => (fRefs, g))
  (cRun.1, if chunks.length > 0 then chunks else [(fRefs, cRefs)])

/-! ## Concrete fixtures for the counterexamples and witnesses -/

/-- A small function entity (JSON length 120, estimated size 30). -/
def tinyFn : FunctionAnalysis :=
  { name := "f", parameters := [], returnType := "void", documentation := "",
    location := { file := "a.ts", startLine := 1, endLine := 1 } }

/-- A small method (JSON length 67, estimated size 17). -/
def tinyMethod : ClassMethod :=
  { name := "m", parameters := [], returnType := "void", documentation := "" }

/-- A class with four equal methods (estimated size 96; each method 17). -/
def quadClass : ClassAnalysis :=
  { name := "C", methods := [tinyMethod, tinyMethod, tinyMethod, tinyMethod],
    properties := [], documentation := "",
    location := { file := "a.ts", startLine := 1, endLine := 9 } }

/-- A small one-method class. -/
def oneClass : ClassAnalysis :=
  { name := "D", methods := [tinyMethod], properties := [], documentation := "",
    location := { file := "a.ts", startLine := 1, endLine := 3 } }

/-- The function entity `foo(a, b)` of the spec scenario. -/
def fooFn : FunctionAnalysis :=
  { name := "foo", parameters := [{ name := "a", type := "any" }, { name := "b", type := "any" }],
    returnType := "any", documentation := "",
    location := { file := "/r/a.ts", startLine := 1, endLine := 3 } }

/-- A file system whose path "/root" names a plain file (exists, not a directory). -/
def fsRootFile : String → Option FSNode :=
  fun p => if p = "/root" then some FSNode.file else none

/-- A file system with a directory "/r" holding files `a.ts` and `b.ts`. -/
def fsAB : String → Option FSNode :=
  fun p => if p = "/r" then
    some (FSNode.dir [("a.ts", FSNode.file), ("b.ts", FSNode.file)]) else none

/-- A file system with a directory "/r" holding the single file `a.tsx`. -/
def fsTsx : String → Option FSNode :=
  fun p => if p = "/r" then some (FSNode.dir [("a.tsx", FSNode.file)]) else none

/-- A parse oracle that succeeds on every file with the single function `foo`. -/
def parseAlwaysFoo : ParseOracle :=
  fun _ _ => .ok { functions := some [fooFn], classes := some [] }

/-- A parse oracle under which `/r/b.ts` throws a syntax error and every other
file parses to the single function `foo`. -/
def parseFailB : ParseOracle :=
  fun _ f => if f = "/r/b.ts" then .error "SyntaxError: Unexpected token"
             else .ok { functions := some [fooFn], classes := some [] }

/-- Like `parseFailB` but `/r/b.ts` parses successfully with no entities. -/
def parseNoFailB : ParseOracle :=
  fun _ f => if f = "/r/b.ts" then .ok { functions := some [], classes := some [] }
             else .ok { functions := some [fooFn], classes := some [] }

/-- Like `parseFailB` but differing on the unrecognized file `/r/x.md`. -/
def parseDifferMd : ParseOracle :=
  fun k f => if f = "/r/x.md" then .error "never reached" else parseFailB k f

/-! ## Packing lemmas -/

/-- The transformation the function pass applies to each input function:
oversized functions get their body replaced, the rest pass unchanged. -/
def funcTransform (maxChunkSize : Nat) (f : FunctionAnalysis) : FunctionAnalysis :=
  if estimateTokens (jsonFunction f) > maxChunkSize then truncBody f else f

/-- The transformation the class pass applies to each input class:
oversized classes are decomposed into their partial records, the rest pass
unchanged as singleton contributions. -/
def classTransform (maxChunkSize : Nat) (c : ClassAnalysis) : List ClassAnalysis :=
  if estimateTokens (jsonClass c) > maxChunkSize then classParts c maxChunkSize else [c]

lemma funcPass_flatten (maxChunkSize : Nat) (fs : List FunctionAnalysis) :
    ∀ (chunks : List (List FunctionAnalysis)) (cur : List FunctionAnalysis) (size : Nat),
      (funcPass maxChunkSize fs chunks cur size).flatten =
        chunks.flatten ++ cur ++ fs.map (funcTransform maxChunkSize) := by
  induction fs with
  | nil =>
    intro chunks cur size
    rcases Nat.eq_zero_or_pos cur.length with h | h
    · have hc : cur = [] := List.eq_nil_of_length_eq_zero h
      subst hc
      simp [funcPass]
    · simp [funcPass, h]
  | cons f rest ih =>
    intro chunks cur size
    by_cases h1 : estimateTokens (jsonFunction f) > maxChunkSize
    · rw [funcPass, if_pos h1, ih]
      simp [funcTransform, h1, List.append_assoc]
    · rw [funcPass, if_neg h1]
      by_cases h2 : size + estimateTokens (jsonFunction f) > maxChunkSize ∧ cur.length > 0
      · rw [if_pos h2, ih]
        simp [funcTransform, h1, List.append_assoc]
      · rw [if_neg h2, ih]
        simp [funcTransform, h1, List.append_assoc]

lemma methodPass_flatten (maxChunkSize : Nat) (ms : List ClassMethod) :
    ∀ (chunks : List (List ClassMethod)) (cur : List ClassMethod) (size : Nat),
      (methodPass maxChunkSize ms chunks cur size).flatten = chunks.flatten ++ cur ++ ms := by
  induction ms with
  | nil =>
    intro chunks cur size
    rcases Nat.eq_zero_or_pos cur.length with h | h
    · have hc : cur = [] := List.eq_nil_of_length_eq_zero h
      subst hc
      simp [methodPass]
    · simp [methodPass, h]
  | cons m rest ih =>
    intro chunks cur size
    by_cases h1 : size + estimateTokens (jsonMethod m) > maxChunkSize
    · rw [methodPass, if_pos h1, ih]
      simp [List.append_assoc]
    · rw [methodPass, if_neg h1, ih]
      simp [List.append_assoc]

lemma classPass_flatten (maxChunkSize : Nat) (cs : List ClassAnalysis) :
    ∀ (chunks : List (List ClassAnalysis)) (cur : List ClassAnalysis) (size : Nat),
      (classPass maxChunkSize cs chunks cur size).flatten =
        chunks.flatten ++ cur ++ cs.flatMap (classTransform maxChunkSize) := by
  induction cs with
  | nil =>
    intro chunks cur size
    rcases Nat.eq_zero_or_pos cur.length with h | h
    · have hc : cur = [] := List.eq_nil_of_length_eq_zero h
      subst hc
      simp [classPass]
    · simp [classPass, h]
  | cons c rest ih =>
    intro chunks cur size
    by_cases h1 : estimateTokens (jsonClass c) > maxChunkSize
    · rw [classPass, if_pos h1, ih]
      simp [classTransform, h1, List.append_assoc]
    · rw [classPass, if_neg h1]
      by_cases h2 : size + estimateTokens (jsonClass c) > maxChunkSize ∧ cur.length > 0
      · rw [if_pos h2, ih]
        simp [classTransform, h1, List.append_assoc]
      · rw [if_neg h2, ih]
        simp [classTransform, h1, List.append_assoc]

lemma funcPass_sum_le (maxChunkSize : Nat) (fs : List FunctionAnalysis) :
    ∀ (chunks : List (List FunctionAnalysis)) (cur : List FunctionAnalysis) (size : Nat),
      (∀ f ∈ fs, estimateTokens (jsonFunction f) ≤ maxChunkSize) →
      (∀ g ∈ chunks, (g.map (fun f => estimateTokens (jsonFunction f))).sum ≤ maxChunkSize) →
      (cur.map (fun f => estimateTokens (jsonFunction f))).sum = size →
      size ≤ maxChunkSize →
      ∀ g ∈ funcPass maxChunkSize fs chunks cur size,
        (g.map (fun f => estimateTokens (jsonFunction f))).sum ≤ maxChunkSize := by
  induction fs with
  | nil =>
    intro chunks cur size _ hchunks hcur hsize g hg
    rcases Nat.eq_zero_or_pos cur.length with h | h
    · have hc : cur = [] := List.eq_nil_of_length_eq_zero h
      subst hc
      simp only [funcPass, List.length_nil, gt_iff_lt, Nat.lt_irrefl, if_false] at hg
      exact hchunks g hg
    · simp only [funcPass, gt_iff_lt, h, if_pos] at hg
      rcases List.mem_append.mp hg with hg | hg
      · exact hchunks g hg
      · have : g = cur := by simpa using hg
        subst this
        omega
  | cons f rest ih =>
    intro chunks cur size hall hchunks hcur hsize g hg
    have hf : estimateTokens (jsonFunction f) ≤ maxChunkSize := hall f (List.mem_cons_self f rest)
    have hrest : ∀ x ∈ rest, estimateTokens (jsonFunction x) ≤ maxChunkSize :=
      fun x hx => hall x (List.mem_cons_of_mem f hx)
    rw [funcPass] at hg
    rw [if_neg (by omega)] at hg
    by_cases h2 : size + estimateTokens (jsonFunction f) > maxChunkSize ∧ cur.length > 0
    · rw [if_pos h2] at hg
      refine ih (chunks ++ [cur]) [f] (estimateTokens (jsonFunction f)) hrest ?_ (by simp) hf g hg
      intro g' hg'
      rcases List.mem_append.mp hg' with hg' | hg'
      · exact hchunks g' hg'
      · have : g' = cur := by simpa using hg'
        subst this
        omega
    · rw [if_neg h2] at hg
      have hcase : size + estimateTokens (jsonFunction f) ≤ maxChunkSize := by
        by_contra hgt
        push_neg at hgt
        have hcz : cur.length = 0 := by
          by_contra hnz
          exact h2 ⟨by omega, Nat.pos_of_ne_zero hnz⟩
        have hnil : cur = [] := List.eq_nil_of_length_eq_zero hcz
        subst hnil
        simp at hcur
        omega
      refine ih chunks (cur ++ [f]) (size + estimateTokens (jsonFunction f)) hrest hchunks ?_ hcase g hg
      simp [hcur]

lemma classPass_sum_le (maxChunkSize : Nat) (cs : List ClassAnalysis) :
    ∀ (chunks : List (List ClassAnalysis)) (cur : List ClassAnalysis) (size : Nat),
      (∀ c ∈ cs, estimateTokens (jsonClass c) ≤ maxChunkSize) →
      (∀ g ∈ chunks, (g.map (fun c => estimateTokens (jsonClass c))).sum ≤ maxChunkSize) →
      (cur.map (fun c => estimateTokens (jsonClass c))).sum = size →
      size ≤ maxChunkSize →
      ∀ g ∈ classPass maxChunkSize cs chunks cur size,
        (g.map (fun c => estimateTokens (jsonClass c))).sum ≤ maxChunkSize := by
  induction cs with
  | nil =>
    intro chunks cur size _ hchunks hcur hsize g hg
    rcases Nat.eq_zero_or_pos cur.length with h | h
    · have hc : cur = [] := List.eq_nil_of_length_eq_zero h
      subst hc
      simp only [classPass, List.length_nil, gt_iff_lt, Nat.lt_irrefl, if_false] at hg
      exact hchunks g hg
    · simp only [classPass, gt_iff_lt, h, if_pos] at hg
      rcases List.mem_append.mp hg with hg | hg
      · exact hchunks g hg
      · have : g = cur := by simpa using hg
        subst this
        omega
  | cons c rest ih =>
    intro chunks cur size hall hchunks hcur hsize g hg
    have hc : estimateTokens (jsonClass c) ≤ maxChunkSize := hall c (List.mem_cons_self c rest)
    have hrest : ∀ x ∈ rest, estimateTokens (jsonClass x) ≤ maxChunkSize :=
      fun x hx => hall x (List.mem_cons_of_mem c hx)
    rw [classPass] at hg
    rw [if_neg (by omega)] at hg
    by_cases h2 : size + estimateTokens (jsonClass c) > maxChunkSize ∧ cur.length > 0
    · rw [if_pos h2] at hg
      refine ih (chunks ++ [cur]) [c] (estimateTokens (jsonClass c)) hrest ?_ (by simp) hc g hg
      intro g' hg'
      rcases List.mem_append.mp hg' with hg' | hg'
      · exact hchunks g' hg'
      · have : g' = cur := by simpa using hg'
        subst this
        omega
    · rw [if_neg h2] at hg
      have hcase : size + estimateTokens (jsonClass c) ≤ maxChunkSize := by
        by_contra hgt
        push_neg at hgt
        have hcz : cur.length = 0 := by
          by_contra hnz
          exact h2 ⟨by omega, Nat.pos_of_ne_zero hnz⟩
        have hnil : cur = [] := List.eq_nil_of_length_eq_zero hcz
        subst hnil
        simp at hcur
        omega
      refine ih chunks (cur ++ [c]) (size + estimateTokens (jsonClass c)) hrest hchunks ?_ hcase g hg
      simp [hcur]

lemma funcPass_ne_nil (maxChunkSize : Nat) (fs : List FunctionAnalysis) :
    ∀ (chunks : List (List FunctionAnalysis)) (cur : List FunctionAnalysis) (size : Nat),
      chunks ≠ [] ∨ cur ≠ [] ∨ fs ≠ [] →
      funcPass maxChunkSize fs chunks cur size ≠ [] := by
  induction fs with
  | nil =>
    intro chunks cur size h
    rcases Nat.eq_zero_or_pos cur.length with hz | hp
    · have hc : cur = [] := List.eq_nil_of_length_eq_zero hz
      subst hc
      simp only [funcPass, List.length_nil, gt_iff_lt, Nat.lt_irrefl, if_false]
      rcases h with h | h | h
      · exact h
      · exact absurd rfl h
      · exact absurd rfl h
    · simp [funcPass, hp]
  | cons f rest ih =>
    intro chunks cur size _
    rw [funcPass]
    by_cases h1 : estimateTokens (jsonFunction f) > maxChunkSize
    · rw [if_pos h1]
      exact ih chunks (cur ++ [truncBody f]) size (Or.inr (Or.inl (by simp)))
    · rw [if_neg h1]
      by_cases h2 : size + estimateTokens (jsonFunction f) > maxChunkSize ∧ cur.length > 0
      · rw [if_pos h2]
        exact ih (chunks ++ [cur]) [f] _ (Or.inl (by simp))
      · rw [if_neg h2]
        exact ih chunks (cur ++ [f]) _ (Or.inr (Or.inl (by simp)))

/-! ## Analyzer lemmas -/

lemma analyzeStep_eq (parseFile : ParseOracle) (acc : AnalysisResult) (file : String) :
    analyzeStep parseFile acc file =
      { functions := acc.functions ++ (fileEntities parseFile file).1,
        classes := acc.classes ++ (fileEntities parseFile file).2 } := by
  unfold analyzeStep fileEntities
  cases getParserForFile file with
  | none => simp
  | some parser =>
    cases hp : parseFile parser file with
    | error e => simp [hp]
    | ok result => simp [hp]

lemma foldl_analyzeStep (parseFile : ParseOracle) :
    ∀ (files : List String) (acc : AnalysisResult),
      files.foldl (analyzeStep parseFile) acc =
        { functions := acc.functions ++ files.flatMap (fun f => (fileEntities parseFile f).1),
          classes := acc.classes ++ files.flatMap (fun f => (fileEntities parseFile f).2) } := by
  intro files
  induction files with
  | nil => intro acc; simp
  | cons f rest ih =>
    intro acc
    rw [List.foldl_cons, ih, analyzeStep_eq]
    simp [List.append_assoc]

/-! ## Traversal lemmas -/

lemma listFiles_eq (dirPath : String) (entries : List (String × FSNode)) :
    listFilesRecursively dirPath entries =
      ((pathsToFiles entries).filter
        (fun comps => comps.all (fun c => !decide (c ∈ IGNORED_DIRS)))).map
        (fun comps => comps.foldl pathJoin dirPath) := by
  induction dirPath, entries using listFilesRecursively.induct with
  | case1 d => simp [listFilesRecursively, pathsToFiles]
  | case2 d name node rest hmem ih =>
    rw [listFilesRecursively.eq_def]
    simp only [if_pos hmem]
    rw [ih]
    cases node with
    | file => simp [pathsToFiles, hmem]
    | dir sub =>
      simp only [pathsToFiles, List.filter_append, List.map_append, List.filter_map]
      simp [Function.comp_def, hmem]
  | case3 d name rest hmem sub ihsub ihrest =>
    rw [listFilesRecursively.eq_def]
    simp only [if_neg hmem]
    rw [ihsub, ihrest]
    simp only [pathsToFiles, List.filter_append, List.map_append, List.filter_map]
    simp [Function.comp_def, hmem]
  | case4 d name rest hmem ihrest =>
    rw [listFilesRecursively.eq_def]
    simp only [if_neg hmem]
    rw [ihrest]
    simp [pathsToFiles, hmem]

/-! ## Heap lemmas: the chunker only reads and allocates, never overwrites -/

lemma funcPassH_heap (maxChunkSize : Nat) :
    ∀ (rs : List Nat) (h : Heap) (chunks : List (List Nat)) (cur : List Nat) (size : Nat),
      ∃ ext, (funcPassH maxChunkSize h rs chunks cur size).1 =
        ⟨h.funcObjs ++ ext, h.classObjs⟩ := by
  intro rs
  induction rs with
  | nil =>
    intro h chunks cur size
    exact ⟨[], by simp [funcPassH]⟩
  | cons r rest ih =>
    intro h chunks cur size
    rw [funcPassH]
    by_cases h1 : estimateTokens (jsonFunction (getFunc h r)) > maxChunkSize
    · rw [if_pos h1]
      obtain ⟨ext, hext⟩ := ih ⟨h.funcObjs ++ [truncBody (getFunc h r)], h.classObjs⟩ chunks
        (cur ++ [(allocFunc h (truncBody (getFunc h r))).2]) size
      exact ⟨[truncBody (getFunc h r)] ++ ext, by simpa [allocFunc, List.append_assoc] using hext⟩
    · rw [if_neg h1]
      by_cases h2 : size + estimateTokens (jsonFunction (getFunc h r)) > maxChunkSize ∧ cur.length > 0
      · rw [if_pos h2]; exact ih h _ _ _
      · rw [if_neg h2]; exact ih h _ _ _

lemma allocParts_heap (cls : ClassAnalysis) (total : Nat) :
    ∀ (ps : List (Nat × List ClassMethod)) (h : Heap),
      ∃ ext, (allocParts cls total h ps).1 = ⟨h.funcObjs, h.classObjs ++ ext⟩ := by
  intro ps
  induction ps with
  | nil => intro h; exact ⟨[], by simp [allocParts]⟩
  | cons p rest ih =>
    intro h
    obtain ⟨idx, methods⟩ := p
    rw [allocParts]
    obtain ⟨ext, hext⟩ := ih ⟨h.funcObjs, h.classObjs ++
      [{ cls with methods := methods,
                  note := some ("Part " ++ toString (idx + 1) ++ "/" ++
                                toString total ++ " of large class") }]⟩
    refine ⟨[{ cls with methods := methods,
                        note := some ("Part " ++ toString (idx + 1) ++ "/" ++
                                      toString total ++ " of large class") }] ++ ext, ?_⟩
    simpa [allocClass, List.append_assoc] using hext

lemma classPassH_heap (maxChunkSize : Nat) :
    ∀ (rs : List Nat) (h : Heap) (chunks : List (List Nat)) (cur : List Nat) (size : Nat),
      ∃ ext, (classPassH maxChunkSize h rs chunks cur size).1 =
        ⟨h.funcObjs, h.classObjs ++ ext⟩ := by
  intro rs
  induction rs with
  | nil =>
    intro h chunks cur size
    exact ⟨[], by simp [classPassH]⟩
  | cons r rest ih =>
    intro h chunks cur size
    rw [classPassH]
    by_cases h1 : estimateTokens (jsonClass (getClass h r)) > maxChunkSize
    · rw [if_pos h1]
      obtain ⟨ext1, hext1⟩ := allocParts_heap (getClass h r)
        (methodPass maxChunkSize (getClass h r).methods [] [] 0).length
        (methodPass maxChunkSize (getClass h r).methods [] [] 0).enum h
      obtain ⟨ext2, hext2⟩ := ih (classPartsH h r maxChunkSize).1 chunks
        (cur ++ (classPartsH h r maxChunkSize).2) size
      refine ⟨ext1 ++ ext2, ?_⟩
      rw [hext2]
      have : (classPartsH h r maxChunkSize).1 = ⟨h.funcObjs, h.classObjs ++ ext1⟩ := hext1
      rw [this]
      simp [List.append_assoc]
    · rw [if_neg h1]
      by_cases h2 : size + estimateTokens (jsonClass (getClass h r)) > maxChunkSize ∧ cur.length > 0
      · rw [if_pos h2]; exact ih h _ _ _
      · rw [if_neg h2]; exact ih h _ _ _

/-! ## Claim theorems -/

/-- C2, counterexample: a chunk none of whose entities is oversized
(`tinyFn`'s own estimated size is exactly the budget 30) still serializes to
an estimated size above `maxUnitSize`, because the chunk also carries the
JSON wrapper and the untouched `classes` list.  The claimed bound on the
serialized chunk fails. -/
theorem c2_counterexample :
    chunkCodebase { functions := [tinyFn], classes := [] } 30 =
      [{ functions := [tinyFn], classes := [] }] ∧
    estimateTokens (jsonFunction tinyFn) ≤ 30 ∧
    estimateTokens (jsonResult { functions := [tinyFn], classes := [] }) > 30 := by
  refine ⟨rfl, by decide, by decide⟩

/-- C2, amended: when no single function (respectively class) exceeds
`maxUnitSize`, every chunk the corresponding pass emits has the *sum of the
estimated sizes of its entities* at or below `maxUnitSize`; the serialized
size of the whole chunk is not bounded (see the counterexample). -/
theorem c2_amended (maxChunkSize : Nat) (fs : List FunctionAnalysis) (cs : List ClassAnalysis)
    (hf : ∀ f ∈ fs, estimateTokens (jsonFunction f) ≤ maxChunkSize)
    (hc : ∀ c ∈ cs, estimateTokens (jsonClass c) ≤ maxChunkSize) :
    (∀ g ∈ funcPass maxChunkSize fs [] [] 0,
      (g.map (fun f => estimateTokens (jsonFunction f))).sum ≤ maxChunkSize) ∧
    (∀ g ∈ classPass maxChunkSize cs [] [] 0,
      (g.map (fun c => estimateTokens (jsonClass c))).sum ≤ maxChunkSize) := by
  constructor
  · exact funcPass_sum_le maxChunkSize fs [] [] 0 hf (by simp) (by simp) (Nat.zero_le _)
  · exact classPass_sum_le maxChunkSize cs [] [] 0 hc (by simp) (by simp) (Nat.zero_le _)

/-- C2, witness for the amended theorem at a concrete input. -/
theorem c2_amended_witness :
    (∀ f ∈ [tinyFn], estimateTokens (jsonFunction f) ≤ 1000) ∧
    (∀ g ∈ funcPass 1000 [tinyFn] [] [] 0,
      (g.map (fun f => estimateTokens (jsonFunction f))).sum ≤ 1000) := by
  refine ⟨by decide, (c2_amended 1000 [tinyFn] [oneClass] (by decide) (by decide)).1⟩

/-- C3, counterexample: with one function and one class under a large budget,
the chunker emits one function chunk and one class chunk, and *each* carries
both full lists (the spread keeps the other list).  Concatenating the
functions of all emitted chunks yields the original function twice — entities
are duplicated across the two passes, contradicting the claim. -/
theorem c3_counterexample :
    chunkCodebase { functions := [tinyFn], classes := [oneClass] } 100000 =
      [{ functions := [tinyFn], classes := [oneClass] },
       { functions := [tinyFn], classes := [oneClass] }] ∧
    (chunkCodebase { functions := [tinyFn], classes := [oneClass] } 100000).flatMap
      (fun chunk => chunk.functions) = [tinyFn, tinyFn] ∧
    [tinyFn, tinyFn] ≠ [tinyFn] := by
  refine ⟨rfl, rfl, by decide⟩

/-- C3, amended: the chunker always returns a non-empty sequence, and the
order/no-loss property holds *per pass*: concatenating the function groups of
the function pass reproduces the original functions modulo body truncation of
oversized ones, and concatenating the class groups of the class pass
reproduces the original classes modulo partial-class decomposition (an
oversized class with no methods contributes no records at all).  Across the
two kinds of chunks together, entities are duplicated (see the
counterexample). -/
theorem c3_amended (context : AnalysisResult) (maxChunkSize : Nat) :
    chunkCodebase context maxChunkSize ≠ [] ∧
    (funcPass maxChunkSize context.functions [] [] 0).flatten =
      context.functions.map (funcTransform maxChunkSize) ∧
    (classPass maxChunkSize context.classes [] [] 0).flatten =
      context.classes.flatMap (classTransform maxChunkSize) := by
  refine ⟨?_, ?_, ?_⟩
  · unfold chunkCodebase
    by_cases h : ((funcPass maxChunkSize context.functions [] [] 0).map
        (fun funcs => { context with functions := funcs }) ++
      (classPass maxChunkSize context.classes [] [] 0).map
        (fun classes => { context with classes := classes }) :
        List AnalysisResult).length > 0
    · simp only [if_pos h]
      intro hnil
      rw [hnil] at h
      simp at h
    · simp only [if_neg h]
      simp
  · simpa using funcPass_flatten maxChunkSize context.functions [] [] 0
  · simpa using classPass_flatten maxChunkSize context.classes [] [] 0

/-- C6, counterexample: the placeholder the code installs is the string
"/* Body too large, truncated */", not the claimed "body too large,
truncated". -/
theorem c6_counterexample :
    chunkCodebase { functions := [tinyFn], classes := [] } 1 =
      [{ functions := [{ tinyFn with body := some "/* Body too large, truncated */" }],
         classes := [] }] ∧
    (some "/* Body too large, truncated */" : Option String) ≠
      some "body too large, truncated" := by
  refine ⟨rfl, by decide⟩

/-- C6, amended: a function whose estimated size alone exceeds `maxUnitSize`
is appended to the current chunk with its body replaced by the placeholder
"/* Body too large, truncated */" and nothing else changed, no new chunk is
started regardless of the current chunk's fill (and the running size is not
even increased), and the function is never split. -/
theorem c6_amended (maxChunkSize : Nat) (f : FunctionAnalysis)
    (rest : List FunctionAnalysis) (chunks : List (List FunctionAnalysis))
    (cur : List FunctionAnalysis) (size : Nat)
    (h : estimateTokens (jsonFunction f) > maxChunkSize) :
    funcPass maxChunkSize (f :: rest) chunks cur size =
      funcPass maxChunkSize rest chunks
        (cur ++ [{ f with body := some "/* Body too large, truncated */" }]) size := by
  rw [funcPass, if_pos h]
  rfl

/-- C6, witness for the amended theorem at a concrete input. -/
theorem c6_amended_witness :
    estimateTokens (jsonFunction tinyFn) > 1 ∧
    funcPass 1 [tinyFn] [] [] 0 =
      funcPass 1 [] [] ([] ++ [{ tinyFn with body := some "/* Body too large, truncated */" }]) 0 :=
  ⟨by decide, c6_amended 1 tinyFn [] [] [] 0 (by decide)⟩

/-- C7, counterexample: `quadClass` has four methods of estimated size 17
(total 68) and is oversized for budget 33, but the greedy method grouping
yields 4 partial-class records while ⌈68 / 33⌉ = 3 — the claimed count
formula does not hold. -/
theorem c7_counterexample :
    estimateTokens (jsonClass quadClass) > 33 ∧
    (classParts quadClass 33).length = 4 ∧
    ((quadClass.methods.map (fun m => estimateTokens (jsonMethod m))).sum + 33 - 1) / 33 = 3 ∧
    (4 : Nat) ≠ 3 := by
  refine ⟨by decide, by decide, by decide, by decide⟩

/-- C7, amended: an oversized class is decomposed into one partial-class
record per *greedily formed* method group (the running-total rule of the
source, whose group count can exceed ⌈totalMethodSize / maxUnitSize⌉);
the records keep the method order (their method lists concatenate back to
the original), there are exactly as many records as method groups, each
record keeps the class's name, properties, documentation and location and
carries the 1-indexed note "Part i/N of large class", and all records are
appended to the current class chunk without starting a new one. -/
theorem c7_amended (maxChunkSize : Nat) (cls : ClassAnalysis)
    (rest : List ClassAnalysis) (chunks : List (List ClassAnalysis))
    (cur : List ClassAnalysis) (size : Nat)
    (h : estimateTokens (jsonClass cls) > maxChunkSize) :
    (classPass maxChunkSize (cls :: rest) chunks cur size =
      classPass maxChunkSize rest chunks (cur ++ classParts cls maxChunkSize) size) ∧
    ((classParts cls maxChunkSize).map (fun c => c.methods)).flatten = cls.methods ∧
    (classParts cls maxChunkSize).length =
      (methodPass maxChunkSize cls.methods [] [] 0).length ∧
    (∀ i, (hi : i < (classParts cls maxChunkSize).length) →
      ((classParts cls maxChunkSize).get ⟨i, hi⟩).note =
        some ("Part " ++ toString (i + 1) ++ "/" ++
              toString (methodPass maxChunkSize cls.methods [] [] 0).length ++
              " of large class") ∧
      ((classParts cls maxChunkSize).get ⟨i, hi⟩).name = cls.name ∧
      ((classParts cls maxChunkSize).get ⟨i, hi⟩).properties = cls.properties ∧
      ((classParts cls maxChunkSize).get ⟨i, hi⟩).documentation = cls.documentation ∧
      ((classParts cls maxChunkSize).get ⟨i, hi⟩).location = cls.location) := by
  refine ⟨?_, ?_, ?_, ?_⟩
  · rw [classPass, if_pos h]
  · rw [classParts]
    rw [List.mapIdx_eq_enum_map, List.map_map]
    have : ((fun c : ClassAnalysis => c.methods) ∘
        (Function.uncurry fun idx methods =>
          { cls with methods := methods,
                     note := some ("Part " ++ toString (idx + 1) ++ "/" ++
                                   toString (methodPass maxChunkSize cls.methods [] [] 0).length ++
                                   " of large class") })) = Prod.snd := by
      funext p
      rfl
    rw [this, List.enum_map_snd]
    simpa using methodPass_flatten maxChunkSize cls.methods [] [] 0
  · simp [classParts]
  · intro i hi
    have hi' : i < (methodPass maxChunkSize cls.methods [] [] 0).length := by
      simpa [classParts] using hi
    refine ⟨?_, ?_, ?_, ?_, ?_⟩ <;>
      simp [classParts, List.get_mapIdx _ _ i hi']

/-- C7, witness for the amended theorem at a concrete input. -/
theorem c7_amended_witness :
    estimateTokens (jsonClass quadClass) > 33 ∧
    classPass 33 [quadClass] [] [] 0 =
      classPass 33 [] [] ([] ++ classParts quadClass 33) 0 :=
  ⟨by decide, (c7_amended 33 quadClass [] [] [] 0 (by decide)).1⟩

/-- C8, counterexample: the name check runs before `statSync`, so a plain
*file* named "dist" is skipped as well; it is a non-directory entry lying
under no ignored directory, yet it does not appear in the traversal
result. -/
theorem c8_counterexample :
    listFilesRecursively "/r" [("dist", FSNode.file)] = [] ∧
    pathsToFiles [("dist", FSNode.file)] = [["dist"]] ∧
    ([] : List String) ≠ ["/r/dist"] := by
  refine ⟨?_, ?_, by decide⟩
  · rw [listFilesRecursively.eq_def]
    simp [IGNORED_DIRS, listFilesRecursively]
  · simp [pathsToFiles]

/-- C8, amended: the traversal returns exactly the files none of whose path
components — the file's own name included — is in the ignored set
{node_modules, .git, dist, .idea, .vscode}, in depth-first visitation order;
so nothing under an ignored-named entry appears, and a file or directory
*itself* named like an ignored directory is also pruned. -/
theorem c8_amended (dirPath : String) (entries : List (String × FSNode)) :
    listFilesRecursively dirPath entries =
      ((pathsToFiles entries).filter
        (fun comps => comps.all (fun c => !decide (c ∈ IGNORED_DIRS)))).map
        (fun comps => comps.foldl pathJoin dirPath) :=
  listFiles_eq dirPath entries

/-- C9, confirmed: rerunning the chunker over an explicit object store in
which the input's function and class objects occupy the initial segment and
every object literal the source builds is a fresh allocation, the store's
initial segment after the run is exactly the input's entity lists: the
chunker reads and copies but never writes an input object, so the input
`AnalysisResult` is unchanged by the call. -/
theorem c9_no_mutation (context : AnalysisResult) (maxChunkSize : Nat) :
    (chunkCodebaseH context maxChunkSize).1.funcObjs.take context.functions.length =
      context.functions ∧
    (chunkCodebaseH context maxChunkSize).1.classObjs.take context.classes.length =
      context.classes := by
  obtain ⟨extF, hF⟩ := funcPassH_heap maxChunkSize (List.range context.functions.length)
    ⟨context.functions, context.classes⟩ [] [] 0
  obtain ⟨extC, hC⟩ := classPassH_heap maxChunkSize (List.range context.classes.length)
    (funcPassH maxChunkSize ⟨context.functions, context.classes⟩
      (List.range context.functions.length) [] [] 0).1 [] [] 0
  have hfinal : (chunkCodebaseH context maxChunkSize).1 =
      (classPassH maxChunkSize
        (funcPassH maxChunkSize ⟨context.functions, context.classes⟩
          (List.range context.functions.length) [] [] 0).1
        (List.range context.classes.length) [] [] 0).1 := rfl
  rw [hfinal, hC, hF]
  constructor
  · simp
  · simp [List.append_assoc]

/-- C10, confirmed: when both entity lists are non-empty the chunker's output
is exactly the function-pass groups, each paired with the complete original
classes list, followed by the class-pass groups, each paired with the
complete original functions list — every chunk is the whole input with just
one of the two lists replaced by its packed subset. -/
theorem c10_chunk_carries_other_list (context : AnalysisResult) (maxChunkSize : Nat)
    (hf : context.functions ≠ []) (_hc : context.classes ≠ []) :
    chunkCodebase context maxChunkSize =
      (funcPass maxChunkSize context.functions [] [] 0).map
        (fun funcs => { functions := funcs, classes := context.classes }) ++
      (classPass maxChunkSize context.classes [] [] 0).map
        (fun classes => { functions := context.functions, classes := classes }) := by
  have hne : funcPass maxChunkSize context.functions [] [] 0 ≠ [] :=
    funcPass_ne_nil maxChunkSize context.functions [] [] 0 (Or.inr (Or.inr hf))
  unfold chunkCodebase
  rw [if_pos]
  simp only [List.length_append, List.length_map]
  have := List.length_pos.mpr hne
  omega

/-- C10, witness at a concrete input. -/
theorem c10_witness :
    ({ functions := [tinyFn], classes := [oneClass] } : AnalysisResult).functions ≠ [] ∧
    ({ functions := [tinyFn], classes := [oneClass] } : AnalysisResult).classes ≠ [] ∧
    chunkCodebase { functions := [tinyFn], classes := [oneClass] } 100000 =
      (funcPass 100000 [tinyFn] [] [] 0).map
        (fun funcs => { functions := funcs, classes := [oneClass] }) ++
      (classPass 100000 [oneClass] [] [] 0).map
        (fun classes => { functions := [tinyFn], classes := classes }) :=
  ⟨by decide, by decide,
   c10_chunk_carries_other_list { functions := [tinyFn], classes := [oneClass] } 100000
     (by decide) (by decide)⟩

/-- When the resolved root is an existing directory, `analyzeProject` returns
`ok` with the per-file contributions of the filtered traversal, concatenated
in traversal order. -/
lemma analyzeProject_dir (normalize : String → String) (fs : String → Option FSNode)
    (parseFile : ParseOracle) (folder : String) (entries : List (String × FSNode))
    (hdir : fs (normalize (jsTrim folder)) = some (FSNode.dir entries)) :
    analyzeProject normalize fs parseFile folder =
      Except.ok
        { functions := ((listFilesRecursively (normalize (jsTrim folder)) entries).filter
            (fun file => jsEndsWith file ".ts" || jsEndsWith file ".js")).flatMap
            (fun f => (fileEntities parseFile f).1),
          classes := ((listFilesRecursively (normalize (jsTrim folder)) entries).filter
            (fun file => jsEndsWith file ".ts" || jsEndsWith file ".js")).flatMap
            (fun f => (fileEntities parseFile f).2) } := by
  simp only [analyzeProject]
  rw [hdir]
  dsimp only
  rw [foldl_analyzeStep]
  simp

/-- When the resolved root is missing or not a directory, `analyzeProject`
throws. -/
lemma analyzeProject_not_dir (normalize : String → String) (fs : String → Option FSNode)
    (parseFile : ParseOracle) (folder : String)
    (h : ∀ entries, fs (normalize (jsTrim folder)) ≠ some (FSNode.dir entries)) :
    ∃ e, analyzeProject normalize fs parseFile folder = Except.error e := by
  simp only [analyzeProject]
  cases hfs : fs (normalize (jsTrim folder)) with
  | none => exact ⟨_, rfl⟩
  | some node =>
    cases node with
    | file => exact ⟨_, rfl⟩
    | dir entries => exact absurd hfs (h entries)

/-- C1, counterexample: a root path that *exists* but names a plain file —
`existsSync` passes, then `readdirSync` throws `ENOTDIR`, so `analyzeProject`
throws although the trimmed, normalized root path exists; the claimed
"throws iff the path does not exist" equivalence fails. -/
theorem c1_counterexample :
    (∃ e, analyzeProject id fsRootFile parseAlwaysFoo "/root" = Except.error e) ∧
    (fsRootFile "/root").isSome = true := by
  constructor
  · apply analyzeProject_not_dir
    intro entries
    have ht : jsTrim "/root" = "/root" := by decide
    simp [id_eq, ht, fsRootFile]
  · rfl

/-- C1, amended: `analyzeProject` succeeds exactly when the trimmed,
normalized root path resolves to an existing *directory* (a missing path
throws "Folder does not exist", an existing non-directory also throws, from
`readdirSync`); in the directory case it always returns `ok`, regardless of
how many per-file parses fail, and the result concatenates exactly the
contributions of the successfully parsed files in traversal order — a
failing file contributes nothing, all others are included. -/
theorem c1_amended (normalize : String → String) (fs : String → Option FSNode)
    (parseFile : ParseOracle) (folder : String) :
    ((∃ r, analyzeProject normalize fs parseFile folder = Except.ok r) ↔
      (∃ entries, fs (normalize (jsTrim folder)) = some (FSNode.dir entries))) ∧
    (∀ entries, fs (normalize (jsTrim folder)) = some (FSNode.dir entries) →
      analyzeProject normalize fs parseFile folder =
        Except.ok
          { functions := ((listFilesRecursively (normalize (jsTrim folder)) entries).filter
              (fun file => jsEndsWith file ".ts" || jsEndsWith file ".js")).flatMap
              (fun f => (fileEntities parseFile f).1),
            classes := ((listFilesRecursively (normalize (jsTrim folder)) entries).filter
              (fun file => jsEndsWith file ".ts" || jsEndsWith file ".js")).flatMap
              (fun f => (fileEntities parseFile f).2) }) := by
  constructor
  · constructor
    · rintro ⟨r, hr⟩
      by_contra hne
      push_neg at hne
      obtain ⟨e, he⟩ := analyzeProject_not_dir normalize fs parseFile folder hne
      rw [he] at hr
      cases hr
    · rintro ⟨entries, hdir⟩
      exact ⟨_, analyzeProject_dir normalize fs parseFile folder entries hdir⟩
  · intro entries hdir
    exact analyzeProject_dir normalize fs parseFile folder entries hdir

/-- C1, witness for the amended theorem: a directory with a valid `a.ts` and
a failing `b.ts` still yields `ok` with exactly `foo` from `a.ts`. -/
theorem c1_amended_witness :
    fsAB (id (jsTrim "/r")) =
      some (FSNode.dir [("a.ts", FSNode.file), ("b.ts", FSNode.file)]) ∧
    analyzeProject id fsAB parseFailB "/r" =
      Except.ok { functions := [fooFn], classes := [] } := by
  have ht : jsTrim "/r" = "/r" := by decide
  have hdir : fsAB (id (jsTrim "/r")) =
      some (FSNode.dir [("a.ts", FSNode.file), ("b.ts", FSNode.file)]) := by
    simp [id_eq, ht, fsAB]
  refine ⟨hdir, ?_⟩
  rw [(c1_amended id fsAB parseFailB "/r").2 _ hdir]
  have hfiles : listFilesRecursively (id (jsTrim "/r"))
      [("a.ts", FSNode.file), ("b.ts", FSNode.file)] = ["/r/a.ts", "/r/b.ts"] := by
    simp [id_eq, ht, listFilesRecursively, IGNORED_DIRS, pathJoin]
  rw [hfiles]
  congr 1

/-- C4, counterexample: `a.tsx` is recognized by the registry's TypeScript
parser, yet `analyzeProject` never dispatches it — the traversal list is
pre-filtered with `endsWith('.ts') || endsWith('.js')`, which `.tsx` fails —
so a project holding only `a.tsx` yields an empty aggregate even under an
oracle that parses every file to a function. -/
theorem c4_counterexample :
    analyzeProject id fsTsx parseAlwaysFoo "/r" =
      Except.ok { functions := [], classes := [] } ∧
    getParserForFile "/r/a.tsx" = some ParserKind.typescript := by
  have ht : jsTrim "/r" = "/r" := by decide
  constructor
  · have hdir : fsTsx (id (jsTrim "/r")) = some (FSNode.dir [("a.tsx", FSNode.file)]) := by
      simp [id_eq, ht, fsTsx]
    rw [analyzeProject_dir id fsTsx parseAlwaysFoo "/r" _ hdir]
    have hfiles : listFilesRecursively (id (jsTrim "/r")) [("a.tsx", FSNode.file)] =
        ["/r/a.tsx"] := by
      simp [id_eq, ht, listFilesRecursively, IGNORED_DIRS, pathJoin]
    rw [hfiles]
    congr 1
  · decide

/-- C4, amended: the analyzer pre-filters the traversal to paths ending in
`.ts` or `.js` (so `.tsx`, `.jsx`, `.yml`, `.yaml` files are skipped even
though registry parsers recognize them); every `.ts` path is dispatched to
the TypeScript parser, every filtered path has some matching parser, and the
outcome of the run never depends on what any parser would do on a file
outside the filtered set — such files are skipped silently, not reported as
errors. -/
theorem c4_amended :
    (∀ file : String, jsEndsWith file ".ts" = true →
      getParserForFile file = some ParserKind.typescript) ∧
    (∀ file : String, (jsEndsWith file ".ts" || jsEndsWith file ".js") = true →
      (getParserForFile file).isSome = true) ∧
    (∀ (normalize : String → String) (fs : String → Option FSNode) (folder : String)
        (p1 p2 : ParseOracle),
      (∀ k f, (jsEndsWith f ".ts" || jsEndsWith f ".js") = true → p1 k f = p2 k f) →
      analyzeProject normalize fs p1 folder = analyzeProject normalize fs p2 folder) := by
  refine ⟨?_, ?_, ?_⟩
  · intro file h
    simp [getParserForFile, registryParsers, List.find?, canHandle, h]
  · intro file h
    by_cases hts : (jsEndsWith file ".ts" || jsEndsWith file ".tsx") = true
    · simp [getParserForFile, registryParsers, List.find?, canHandle, hts]
    · have hjs : jsEndsWith file ".js" = true := by
        rcases Bool.or_eq_true_iff.mp h with h1 | h1
        · exact absurd (by simp [h1]) hts
        · exact h1
      simp [getParserForFile, registryParsers, List.find?, canHandle, hts, hjs]
  · intro normalize fs folder p1 p2 hp
    simp only [analyzeProject]
    cases hfs : fs (normalize (jsTrim folder)) with
    | none => rfl
    | some node =>
      cases node with
      | file => rfl
      | dir entries =>
        dsimp only
        rw [foldl_analyzeStep, foldl_analyzeStep]
        have hcongr : ∀ f ∈ (listFilesRecursively (normalize (jsTrim folder)) entries).filter
            (fun file => jsEndsWith file ".ts" || jsEndsWith file ".js"),
            fileEntities p1 f = fileEntities p2 f := by
          intro f hf
          have hsuf := (List.mem_filter.mp hf).2
          unfold fileEntities
          cases hk : getParserForFile f with
          | none => rfl
          | some k =>
            dsimp only
            rw [hp k f hsuf]
        rw [List.flatMap_congr (fun f hf => congrArg Prod.fst (hcongr f hf)),
            List.flatMap_congr (fun f hf => congrArg Prod.snd (hcongr f hf))]

/-- C4, witness for the amended theorem at concrete inputs: the dispatch
facts at `x.ts`, and the run over `/r` unchanged under an oracle differing
only at the unrecognized `/r/x.md`. -/
theorem c4_amended_witness :
    jsEndsWith "x.ts" ".ts" = true ∧
    getParserForFile "x.ts" = some ParserKind.typescript ∧
    analyzeProject id fsAB parseFailB "/r" = analyzeProject id fsAB parseDifferMd "/r" := by
  refine ⟨by decide, c4_amended.1 "x.ts" (by decide),
    c4_amended.2.2 id fsAB "/r" parseFailB parseDifferMd ?_⟩
  intro k f hsuf
  by_cases hmd : f = "/r/x.md"
  · subst hmd
    exact absurd hsuf (by decide)
  · simp [parseDifferMd, hmd]

/-- C5, counterexample: a run in which `/r/b.ts` throws a syntax error
returns the *same value* as a run in which `/r/b.ts` parses cleanly with no
entities — the failure is only logged inside the loop's `catch`; no
{file, error} list exists in the returned `AnalysisResult`, so the caller
receives no failure data at all. -/
theorem c5_counterexample :
    analyzeProject id fsAB parseFailB "/r" = analyzeProject id fsAB parseNoFailB "/r" ∧
    parseFailB ParserKind.typescript "/r/b.ts" =
      Except.error "SyntaxError: Unexpected token" ∧
    analyzeProject id fsAB parseFailB "/r" =
      Except.ok { functions := [fooFn], classes := [] } := by
  have ht : jsTrim "/r" = "/r" := by decide
  have hdir : fsAB (id (jsTrim "/r")) =
      some (FSNode.dir [("a.ts", FSNode.file), ("b.ts", FSNode.file)]) := by
    simp [id_eq, ht, fsAB]
  have hfiles : listFilesRecursively (id (jsTrim "/r"))
      [("a.ts", FSNode.file), ("b.ts", FSNode.file)] = ["/r/a.ts", "/r/b.ts"] := by
    simp [id_eq, ht, listFilesRecursively, IGNORED_DIRS, pathJoin]
  have h1 : analyzeProject id fsAB parseFailB "/r" =
      Except.ok { functions := [fooFn], classes := [] } := by
    rw [analyzeProject_dir id fsAB parseFailB "/r" _ hdir, hfiles]
    congr 1
  have h2 : analyzeProject id fsAB parseNoFailB "/r" =
      Except.ok { functions := [fooFn], classes := [] } := by
    rw [analyzeProject_dir id fsAB parseNoFailB "/r" _ hdir, hfiles]
    congr 1
  exact ⟨h1.trans h2.symm, rfl, h1⟩

/-- C5, amended: `analyzeProject` records per-file failures only in the log;
the returned aggregate carries no failure data — replacing every failing
parse by an empty success changes nothing about the returned value, for any
file system, oracle and root. -/
theorem c5_amended (normalize : String → String) (fs : String → Option FSNode)
    (parseFile : ParseOracle) (folder : String) :
    analyzeProject normalize fs parseFile folder =
      analyzeProject normalize fs
        (fun k f => match parseFile k f with
          | Except.error _ => Except.ok { functions := some [], classes := some [] }
          | Except.ok r => Except.ok r) folder := by
  simp only [analyzeProject]
  cases hfs : fs (normalize (jsTrim folder)) with
  | none => rfl
  | some node =>
    cases node with
    | file => rfl
    | dir entries =>
      dsimp only
      rw [foldl_analyzeStep, foldl_analyzeStep]
      have hcongr : ∀ f : String, fileEntities parseFile f =
          fileEntities (fun k f => match parseFile k f with
            | Except.error _ => Except.ok { functions := some [], classes := some [] }
            | Except.ok r => Except.ok r) f := by
        intro f
        unfold fileEntities
        cases hk : getParserForFile f with
        | none => rfl
        | some k =>
          cases hp : parseFile k f with
          | error e => simp [hp]
          | ok r => simp [hp]
      rw [List.flatMap_congr (fun f _ => congrArg Prod.fst (hcongr f)),
          List.flatMap_congr (fun f _ => congrArg Prod.snd (hcongr f))]
